import Mathlib

/-!
Verification of the event-study abnormal-return engine (`src/backtester.py`)
of the biotech-event-strategy repository, against its natural-language
specification.

The embedding is shallow: Python floats become rationals (`ℚ`), Python ints
become `Int`/`Nat`, pandas positional (`iloc`) slicing becomes `pySlice`
(with Python's negative-index and clamping semantics), the single-feature
sklearn `LinearRegression` becomes the closed-form univariate OLS `linfit`,
and the mutable `BiotechEventBacktester` object becomes explicit state
passing on the `Backtester` structure.  `numpy.log`, used only when the
return-series store is built, is passed in as an abstract function
`log : ℚ → ℚ` since no claim depends on its values.
-/

namespace BiotechEvent

/-- Trading dates; the engine only ever compares them for equality, so an
abstract ordinal suffices. -/
abbrev Date := Nat

/-- Constructor arguments of `BiotechEventBacktester.__init__`:
`benchmark_ticker`, `estimation_window`, `event_window = (lead, lag)`. -/
structure Config where
  benchmark_ticker : String
  estimation_window : Int
  event_window : Int × Int
  deriving DecidableEq

/-- The `self.market_data` DataFrame: a trading-date index plus one
log-return column per symbol (`cols` maps each column name to its series,
all series indexed positionally in step with `dates`). -/
structure MarketData where
  dates : List Date
  cols : List (String × List ℚ)
  deriving DecidableEq

/-- One row of the `events_df` input of `run_event_study`. -/
structure Event where
  ticker : String
  event_date : Date
  quality_score : String
  catalyst_type : String
  deriving DecidableEq

/-- One dict appended to `self.results` by `run_event_study`
(keys `Ticker`, `Event_Date`, `Quality_Score`, `CAR`, `Real_Return`). -/
structure ResultRecord where
  ticker : String
  event_date : Date
  quality_score : String
  car : ℚ
  real_return : ℚ
  deriving DecidableEq

/-- Full mutable state of a `BiotechEventBacktester` instance: the
construction-time configuration, `self.market_data`, and the instance-level
accumulator `self.results`. -/
structure Backtester where
  cfg : Config
  market_data : MarketData
  results : List ResultRecord
  deriving DecidableEq

/-- State of a backtester right after `__init__` (which sets
`self.results = []`) and `fetch_market_data` (which sets
`self.market_data`). -/
def mkBacktester (cfg : Config) (md : MarketData) : Backtester :=
  { cfg := cfg, market_data := md, results := [] }

/-- Column lookup `self.market_data[symbol]`; the column is present in all
uses guarded by the `in columns` check resp. by construction (benchmark). -/
def col (md : MarketData) (s : String) : List ℚ :=
  (md.cols.lookup s).getD []

/-- Normalisation of one positional slice bound, exactly as Python does it
for a step-1 slice over a sequence of length `n`: a negative bound counts
from the end (clamped below at 0), a nonnegative bound is clamped above
at `n`. -/
def normIdx (k : Int) (n : Nat) : Nat :=
  if k < 0 then (k + n).toNat else min k.toNat n

/-- Python / pandas positional slicing `xs.iloc[a:b]` (step 1): both bounds
normalised by `normIdx`, then the half-open range of positions is taken.
Out-of-range bounds never fail, they silently clamp. -/
def pySlice {α : Type} (l : List α) (a b : Int) : List α :=
  (l.drop (normIdx a l.length)).take (normIdx b l.length - normIdx a l.length)

/-- Line 51 of `backtester.py`:
`est_start = event_date_idx - self.estimation_window - abs(self.event_window[0])`. -/
def est_start (cfg : Config) (event_date_idx : Int) : Int :=
  event_date_idx - cfg.estimation_window - |cfg.event_window.1|

/-- Line 52 of `backtester.py`:
`est_end = event_date_idx - abs(self.event_window[0])`. -/
def est_end (cfg : Config) (event_date_idx : Int) : Int :=
  event_date_idx - |cfg.event_window.1|

/-- Embedding of `sklearn.linear_model.LinearRegression().fit(X, y)` for a
single feature: ordinary least squares, returned as `(intercept, slope)` =
`(alpha, beta)` exactly as line 63-66 of `backtester.py` reads them off.
For a degenerate design (`Σ (x - x̄)² = 0`, including the empty sample)
rational division by zero yields `beta = 0` and `alpha = ȳ`, matching the
minimum-norm least-squares solution sklearn computes. -/
def linfit (X y : List ℚ) : ℚ × ℚ :=
  let n : ℚ := X.length
  let xbar := X.sum / n
  let ybar := y.sum / n
  let sxx := (X.map (fun x => (x - xbar) ^ 2)).sum
  let sxy := ((X.zip y).map (fun p => (p.1 - xbar) * (p.2 - ybar))).sum
  let beta := sxy / sxx
  (ybar - beta * xbar, beta)

/-- Body of `calculate_expected_return` after the two column extractions:
window arithmetic, the insufficient-history guard, the two estimation
slices and the regression. -/
def calculate_expected_return_core (cfg : Config) (stock bench : List ℚ)
    (event_date_idx : Nat) : Option (ℚ × ℚ) :=
  if est_start cfg event_date_idx < 0 then none
  else
    some (linfit
      (pySlice bench (est_start cfg event_date_idx) (est_end cfg event_date_idx))
      (pySlice stock (est_start cfg event_date_idx) (est_end cfg event_date_idx)))

/-- Method `calculate_expected_return(stock_ticker, event_date_idx)`,
lines 44-66 of `backtester.py`. -/
def calculate_expected_return (cfg : Config) (md : MarketData)
    (stock_ticker : String) (event_date_idx : Nat) : Option (ℚ × ℚ) :=
  calculate_expected_return_core cfg (col md stock_ticker)
    (col md cfg.benchmark_ticker) event_date_idx

/-- One iteration of the event loop of `run_event_study` (lines 76-119):
the three skip guards (`ticker not in columns`, `get_loc` raising
`KeyError` modelled as `findIdx?` returning `none`, `params` falsy), then
the trade-window slices, the expected / abnormal returns and the record.
Returns `none` when the event is skipped. -/
def process_event (cfg : Config) (md : MarketData) (ev : Event) :
    Option ResultRecord :=
  if ev.ticker ∈ md.cols.map Prod.fst then
    match List.findIdx? (fun d => d == ev.event_date) md.dates with
    | none => none
    | some event_idx =>
      match calculate_expected_return cfg md ev.ticker event_idx with
      | none => none
      | some (alpha, beta) =>
        let win_start : Int := (event_idx : Int) + cfg.event_window.1
        let win_end : Int := (event_idx : Int) + cfg.event_window.2
        let real_returns := pySlice (col md ev.ticker) win_start (win_end + 1)
        let market_returns :=
          pySlice (col md cfg.benchmark_ticker) win_start (win_end + 1)
        let expected_returns := market_returns.map (fun m => alpha + beta * m)
        let abnormal_returns :=
          List.zipWith (fun r e => r - e) real_returns expected_returns
        some { ticker := ev.ticker, event_date := ev.event_date,
               quality_score := ev.quality_score,
               car := abnormal_returns.sum,
               real_return := real_returns.sum }
  else none

/-- Method `run_event_study(events_df)`, lines 68-121 of `backtester.py`:
each processable event appends its record to the instance-level
`self.results`, and the method returns `pd.DataFrame(self.results)` —
i.e. the whole accumulated list, previous invocations included. -/
def run_event_study (st : Backtester) (events : List Event) :
    Backtester × List ResultRecord :=
  let recs := st.results ++ events.filterMap (process_event st.cfg st.market_data)
  ({ st with results := recs }, recs)

/-- Elementwise step of `np.log(data / data.shift(1))`: a value is produced
only when both the current and the previous price are present, otherwise
the entry is NaN (modelled as `none`).  `log` abstracts `numpy.log`. -/
def logStep (log : ℚ → ℚ) (cur prev : Option ℚ) : Option ℚ :=
  match cur, prev with
  | some p, some q => some (log (p / q))
  | _, _ => none

/-- Row-by-row computation of `np.log(data / data.shift(1))`: each price
row is combined with the previous row (`prev`), the first row with the
all-NaN row `shift(1)` puts in front. -/
def logReturnRows (log : ℚ → ℚ) (prev : List (Option ℚ)) :
    List (Date × List (Option ℚ)) → List (Date × List (Option ℚ))
  | [] => []
  | (d, cur) :: rest =>
      (d, List.zipWith (logStep log) cur prev) :: logReturnRows log cur rest

/-- Pandas `.dropna()` on a DataFrame of rows: every row containing any
missing value is removed. -/
def dropna (rows : List (Date × List (Option ℚ))) :
    List (Date × List (Option ℚ)) :=
  rows.filter (fun r => r.2.all Option.isSome)

/-- Method `fetch_market_data` (lines 27-42 of `backtester.py`), with the
`yf.download` result passed in as `raw` (one row per date, one
`Option ℚ` price per symbol of `syms`, `none` = missing) and `numpy.log`
passed in as `log`: computes the daily log returns, applies `.dropna()`,
and stores the surviving rows as `self.market_data`. -/
def fetch_market_data (log : ℚ → ℚ) (syms : List String)
    (raw : List (Date × List (Option ℚ))) : MarketData :=
  { dates :=
      (dropna (logReturnRows log (List.replicate syms.length none) raw)).map
        Prod.fst,
    cols := syms.enum.map (fun sj =>
      (sj.2, (dropna (logReturnRows log (List.replicate syms.length none) raw)).map
        (fun r => ((r.2.get? sj.1).getD none).getD 0))) }


/-- Small concrete configuration: benchmark `B`, estimation window 1,
event window `(0, 0)`. -/
def cfgA : Config := ⟨"B", 1, (0, 0)⟩

/-- Three aligned trading days for the stock `X` and the benchmark `B`. -/
def mdA : MarketData := ⟨[0, 1, 2], [("X", [10, 2, 4]), ("B", [1, 5, 7])]⟩

/-- A processable event for `X` on trading day 1. -/
def evA : Event := ⟨"X", 1, "High", "FDA"⟩

/-- An event whose ticker is absent from the store. -/
def evBad : Event := ⟨"Z", 1, "Low", "FDA"⟩

/-- Engine state left behind by a first invocation of `run_event_study`. -/
def stA2 : Backtester := (run_event_study (mkBacktester cfgA mdA) [evA]).1

/-- Configuration with event window `(0, 1)`. -/
def cfgB : Config := ⟨"B", 1, (0, 1)⟩

/-- Store whose stock has zero returns over the estimation window and whose
benchmark has zero returns over the trade window. -/
def mdB : MarketData := ⟨[0, 1, 2], [("X", [0, 3, 5]), ("B", [2, 0, 0])]⟩

/-- Configuration with a negative lead: event window `(−1, 0)`. -/
def cfgC : Config := ⟨"B", 1, (-1, 0)⟩

/-- Three-day store for the `cfgC` scenario. -/
def mdC : MarketData := ⟨[0, 1, 2], [("X", [1, 2, 3]), ("B", [4, 5, 6])]⟩

/-- Configuration whose event window `(0, 5)` overruns a three-day store. -/
def cfgD : Config := ⟨"B", 1, (0, 5)⟩

/-- Store for the truncation counterexamples: nonzero fitted alpha. -/
def mdE : MarketData := ⟨[0, 1, 2], [("X", [8, 2, 4]), ("B", [1, 5, 7])]⟩

/-- Store with an all-zero benchmark trade window and nonzero alpha. -/
def mdF : MarketData := ⟨[0, 1, 2], [("X", [8, 2, 4]), ("B", [1, 0, 0])]⟩

/-- Raw two-symbol price data whose aligned log-return series is nonempty. -/
def rawW : List (Date × List (Option ℚ)) :=
  [(0, [some 1, some 1]), (1, [some 2, some 3])]

/-- Raw two-symbol price data with complementary gaps: every log-return row
has a missing value, so the aligned series is empty. -/
def rawBad : List (Date × List (Option ℚ)) :=
  [(0, [some 1, none]), (1, [none, some 2])]

/-- Default record used to express `filterMap` as `filter` plus `map`. -/
def emptyRecord : ResultRecord := ⟨"", 0, "", 0, 0⟩


/-- Positions of a take-of-drop, in `get?` form. -/
lemma get?_take_drop {α : Type} (l : List α) (s t i : Nat) :
    ((l.drop s).take t).get? i = if i < t then l.get? (s + i) else none := by
  by_cases hit : i < t
  · rw [if_pos hit, List.get?_take hit, List.get?_drop]
  · rw [if_neg hit]
    refine List.get?_eq_none.mpr ?_
    have h1 : ((l.drop s).take t).length = min t (l.drop s).length :=
      List.length_take t (l.drop s)
    omega

/-- Positions of a map over `List.range'`, in `get?` form. -/
lemma get?_map_range' (f : Nat → ℚ) (s n i : Nat) :
    ((List.range' s n).map f).get? i = if i < n then some (f (s + i)) else none := by
  by_cases h : i < n
  · rw [if_pos h, List.get?_map, List.get?_range' s 1 h]
    simp
  · rw [if_neg h]
    refine List.get?_eq_none.mpr ?_
    simp only [List.length_map, List.length_range']
    omega

/-- Two lists of the same length that agree below `c` have equal
`drop`/`take` windows whenever the window sits below `c`. -/
lemma slice_agree {α : Type} (l₁ l₂ : List α)
    (c s t : Nat) (hst : s + t ≤ c)
    (hag : ∀ i, i < c → l₁.get? i = l₂.get? i) :
    (l₁.drop s).take t = (l₂.drop s).take t := by
  apply List.ext_get?
  intro i
  rw [get?_take_drop, get?_take_drop]
  by_cases hit : i < t
  · rw [if_pos hit, if_pos hit]
    exact hag (s + i) (by omega)
  · rw [if_neg hit, if_neg hit]

/-- With both bounds nonnegative and the upper bound inside the list, a
`pySlice` is the map of the element accessor over the index range. -/
lemma pySlice_eq_range' {l : List ℚ} {a b : Int} (h0 : 0 ≤ a) (hab : a ≤ b)
    (hb : b ≤ (l.length : Int)) :
    pySlice l a b = (List.range' a.toNat (b - a).toNat).map (fun i => l.getD i 0) := by
  have han : normIdx a l.length = a.toNat := by
    unfold normIdx; rw [if_neg (by omega)]; omega
  have hbn : normIdx b l.length = b.toNat := by
    unfold normIdx; rw [if_neg (by omega)]; omega
  unfold pySlice
  rw [han, hbn]
  apply List.ext_get?
  intro i
  rw [get?_take_drop, get?_map_range']
  have hba : (b - a).toNat = b.toNat - a.toNat := by omega
  by_cases hit : i < b.toNat - a.toNat
  · rw [if_pos hit, if_pos (by omega)]
    have hlt : a.toNat + i < l.length := by omega
    rw [List.get?_eq_get hlt]
    rw [List.getD_eq_get?, List.get?_eq_get hlt]
    rfl
  · rw [if_neg hit, if_neg (by omega)]

/-- Slices with identical bounds over equally long lists are equally long. -/
lemma pySlice_length_eq {α : Type} (l₁ l₂ : List α) (a b : Int)
    (h : l₁.length = l₂.length) :
    (pySlice l₁ a b).length = (pySlice l₂ a b).length := by
  unfold pySlice
  simp [List.length_take, List.length_drop, h]

/-- Agreement of two equally long series below `b` forces equal slices. -/
lemma pySlice_congr_of_agree (l₁ l₂ : List ℚ) (a b : Int) (h0 : 0 ≤ a)
    (hab : a ≤ b) (hlen : l₁.length = l₂.length)
    (hag : ∀ i : Nat, (i : Int) < b → l₁.get? i = l₂.get? i) :
    pySlice l₁ a b = pySlice l₂ a b := by
  unfold pySlice
  rw [hlen]
  have han : normIdx a l₂.length = min a.toNat l₂.length := by
    unfold normIdx; rw [if_neg (by omega)]
  have hbn : normIdx b l₂.length = min b.toNat l₂.length := by
    unfold normIdx; rw [if_neg (by omega)]
  rw [han, hbn]
  apply slice_agree l₁ l₂ b.toNat
  · omega
  · intro i hi
    exact hag i (by omega)

/-- Pointwise combination of two maps over one list. -/
lemma zipWith_map_same {α β γ δ : Type} (f : β → γ → δ) (g : α → β)
    (h : α → γ) (l : List α) :
    List.zipWith f (l.map g) (l.map h) = l.map (fun x => f (g x) (h x)) := by
  induction l with
  | nil => rfl
  | cons a l ih => simp [ih]

/-- Subtracting a constant under `zipWith` shifts the sum by a multiple. -/
lemma sum_zipWith_sub_replicate (R : List ℚ) (c : ℚ) :
    (List.zipWith (fun r e => r - e) R (List.replicate R.length c)).sum =
      R.sum - R.length * c := by
  induction R with
  | nil => simp
  | cons r R ih =>
    simp only [List.length_cons, List.replicate_succ, List.zipWith_cons_cons,
      List.sum_cons, ih]
    push_cast
    ring

/-- An affine map over an all-zero list is constant. -/
lemma map_affine_of_zero (M : List ℚ) (a b : ℚ) (h : ∀ m ∈ M, m = 0) :
    M.map (fun m => a + b * m) = List.replicate M.length a := by
  have step : M.map (fun m => a + b * m) = M.map (fun _ => a) :=
    List.map_congr_left (fun m hm => by rw [h m hm]; ring)
  rw [step, List.map_const']

/-- Expansion of `filterMap` as a map over the kept elements. -/
lemma filterMap_eq_filter_map {α β : Type} (g : α → Option β) (d : β)
    (l : List α) :
    l.filterMap g =
      (l.filter (fun a => (g a).isSome)).map (fun a => (g a).getD d) := by
  induction l with
  | nil => rfl
  | cons a l ih =>
    cases hg : g a with
    | none => simp [List.filterMap_cons, List.filter_cons, hg, ih]
    | some v => simp [List.filterMap_cons, List.filter_cons, hg, ih]




/-- Characterisation of a processed (non-skipped) event: with all three
guards passing, `process_event` emits exactly the record built from the
two trade-window slices. -/
lemma process_event_eq {cfg : Config} {md : MarketData} {ev : Event}
    {event_idx : Nat} {alpha beta : ℚ}
    (hmem : ev.ticker ∈ md.cols.map Prod.fst)
    (hidx : List.findIdx? (fun d => d == ev.event_date) md.dates = some event_idx)
    (hmodel : calculate_expected_return cfg md ev.ticker event_idx = some (alpha, beta)) :
    process_event cfg md ev = some
      { ticker := ev.ticker, event_date := ev.event_date,
        quality_score := ev.quality_score,
        car := (List.zipWith (fun r e => r - e)
            (pySlice (col md ev.ticker) ((event_idx : Int) + cfg.event_window.1)
              ((event_idx : Int) + cfg.event_window.2 + 1))
            ((pySlice (col md cfg.benchmark_ticker)
              ((event_idx : Int) + cfg.event_window.1)
              ((event_idx : Int) + cfg.event_window.2 + 1)).map
              (fun m => alpha + beta * m))).sum,
        real_return := (pySlice (col md ev.ticker)
            ((event_idx : Int) + cfg.event_window.1)
            ((event_idx : Int) + cfg.event_window.2 + 1)).sum } := by
  unfold process_event
  rw [if_pos hmem, hidx]
  dsimp only
  rw [hmodel]

/-- C1: for every event for which a risk model is estimated (with the
nonnegative estimation window length the spec defines, in trading days),
the estimation window is `[est_start, est_end)` with
`est_end = event_position − |lead_days|` and
`est_start = est_end − estimation_window_length`; every index that can
influence the fitted `(alpha, beta)` lies strictly below `est_end`, which
never exceeds `event_position + lead_days`: two stores of equal length
agreeing on all indices below `est_end` produce identical risk models, so
no return inside or after the trade window contributes. -/
theorem estimation_no_lookahead (cfg : Config)
    (hw : 0 ≤ cfg.estimation_window) (event_idx : Nat)
    (s₁ b₁ s₂ b₂ : List ℚ)
    (hsl : s₁.length = s₂.length) (hbl : b₁.length = b₂.length)
    (hs : ∀ i : Nat, (i : Int) < est_end cfg event_idx → s₁.get? i = s₂.get? i)
    (hb : ∀ i : Nat, (i : Int) < est_end cfg event_idx → b₁.get? i = b₂.get? i) :
    est_end cfg event_idx = (event_idx : Int) - |cfg.event_window.1| ∧
    est_start cfg event_idx = est_end cfg event_idx - cfg.estimation_window ∧
    est_end cfg event_idx ≤ (event_idx : Int) + cfg.event_window.1 ∧
    calculate_expected_return_core cfg s₁ b₁ event_idx =
      calculate_expected_return_core cfg s₂ b₂ event_idx := by
  refine ⟨rfl, by unfold est_start est_end; ring, ?_, ?_⟩
  · unfold est_end
    have := neg_abs_le cfg.event_window.1
    linarith
  · unfold calculate_expected_return_core
    by_cases hneg : est_start cfg event_idx < 0
    · rw [if_pos hneg, if_pos hneg]
    · rw [if_neg hneg, if_neg hneg]
      have h0 : 0 ≤ est_start cfg event_idx := by omega
      have hse : est_start cfg event_idx ≤ est_end cfg event_idx := by
        unfold est_start est_end; linarith
      rw [pySlice_congr_of_agree s₁ s₂ _ _ h0 hse hsl hs,
        pySlice_congr_of_agree b₁ b₂ _ _ h0 hse hbl hb]

/-- Witness for C1: two pairs of three-day series that differ only at and
after the estimation window's end yield the same fitted model. -/
theorem estimation_no_lookahead_witness :
    (0 : Int) ≤ cfgA.estimation_window ∧
    calculate_expected_return_core cfgA [1, 2, 3] [4, 5, 6] 2 =
      calculate_expected_return_core cfgA [1, 2, 9] [4, 5, 7] 2 := by
  refine ⟨by decide, (estimation_no_lookahead cfgA (by decide) 2
    [1, 2, 3] [4, 5, 6] [1, 2, 9] [4, 5, 7] rfl rfl ?_ ?_).2.2.2⟩
  · intro i hi
    have h2 : (i : Int) < 2 := by simpa [est_end, cfgA] using hi
    have h3 : i < 2 := by exact_mod_cast h2
    interval_cases i <;> rfl
  · intro i hi
    have h2 : (i : Int) < 2 := by simpa [est_end, cfgA] using hi
    have h3 : i < 2 := by exact_mod_cast h2
    interval_cases i <;> rfl

/-- C3: an event whose ticker is unknown, whose date has no exact position
in the trading-date index, or whose estimation window would begin before
index 0, yields no record (and `estimate_risk_model` returns `none` in the
last case rather than failing), and removing such an event from a run
leaves the run's output unchanged: the run is never aborted. -/
theorem skipped_event_leaves_run_intact (cfg : Config) (md : MarketData)
    (ev : Event)
    (h : ev.ticker ∉ md.cols.map Prod.fst ∨
      List.findIdx? (fun d => d == ev.event_date) md.dates = none ∨
      (∃ k, List.findIdx? (fun d => d == ev.event_date) md.dates = some k ∧
        (k : Int) - |cfg.event_window.1| - cfg.estimation_window < 0)) :
    process_event cfg md ev = none ∧
    (∀ k : Nat, (k : Int) - |cfg.event_window.1| - cfg.estimation_window < 0 →
      calculate_expected_return cfg md ev.ticker k = none) ∧
    (∀ results pre post,
      (run_event_study ⟨cfg, md, results⟩ (pre ++ ev :: post)).2 =
        (run_event_study ⟨cfg, md, results⟩ (pre ++ post)).2) := by
  have hnone : ∀ k : Nat,
      (k : Int) - |cfg.event_window.1| - cfg.estimation_window < 0 →
      calculate_expected_return cfg md ev.ticker k = none := by
    intro k hk
    unfold calculate_expected_return calculate_expected_return_core
    rw [if_pos (by unfold est_start; linarith)]
  have hpe : process_event cfg md ev = none := by
    unfold process_event
    rcases h with h1 | h2 | ⟨k, hk, hneg⟩
    · rw [if_neg h1]
    · by_cases hm : ev.ticker ∈ md.cols.map Prod.fst
      · rw [if_pos hm, h2]
      · rw [if_neg hm]
    · by_cases hm : ev.ticker ∈ md.cols.map Prod.fst
      · rw [if_pos hm, hk]
        dsimp only
        rw [hnone k hneg]
      · rw [if_neg hm]
  refine ⟨hpe, hnone, ?_⟩
  intro results pre post
  simp [run_event_study, List.filterMap_append, List.filterMap_cons, hpe]

/-- Witness for C3: an unknown-ticker event is skipped and its presence in
the middle of a run changes nothing. -/
theorem skipped_event_leaves_run_intact_witness :
    evBad.ticker ∉ mdA.cols.map Prod.fst ∧
    process_event cfgA mdA evBad = none ∧
    (run_event_study ⟨cfgA, mdA, []⟩ ([] ++ evBad :: [evA])).2 =
      (run_event_study ⟨cfgA, mdA, []⟩ ([] ++ [evA])).2 := by
  have h := skipped_event_leaves_run_intact cfgA mdA evBad (Or.inl (by decide))
  exact ⟨by decide, h.1, h.2.2 [] [] [evA]⟩

/-- C10: with `estimation_window ≥ 0` and `lead_days ≤ 0`, any event whose
risk model is estimated has a nonnegative trade-window start index, so the
negative branch of Python's positional slice normalisation (which would
silently wrap around to the end of the series) is unreachable for emitted
records. -/
theorem emitted_window_start_nonneg (cfg : Config) (md : MarketData)
    (t : String) (hw : 0 ≤ cfg.estimation_window)
    (hl : cfg.event_window.1 ≤ 0) (event_idx : Nat) (p : ℚ × ℚ)
    (h : calculate_expected_return cfg md t event_idx = some p) :
    0 ≤ (event_idx : Int) + cfg.event_window.1 ∧
    ∀ n : Nat, normIdx ((event_idx : Int) + cfg.event_window.1) n =
      min ((event_idx : Int) + cfg.event_window.1).toNat n := by
  have hes : ¬ est_start cfg event_idx < 0 := by
    intro hc
    unfold calculate_expected_return calculate_expected_return_core at h
    rw [if_pos hc] at h
    exact Option.noConfusion h
  have habs : |cfg.event_window.1| = -cfg.event_window.1 := abs_of_nonpos hl
  have h0 : 0 ≤ (event_idx : Int) + cfg.event_window.1 := by
    unfold est_start at hes
    rw [habs] at hes
    omega
  exact ⟨h0, fun n => by unfold normIdx; rw [if_neg (by omega)]⟩

/-- Witness for C10: a processable event with `lead_days = −1` has
trade-window start `2 − 1 = 1 ≥ 0`, normalised by the nonnegative branch. -/
theorem emitted_window_start_nonneg_witness :
    calculate_expected_return cfgC mdC ("X") 2 = some (1, 0) ∧
    0 ≤ (2 : Int) + cfgC.event_window.1 ∧
    normIdx ((2 : Int) + cfgC.event_window.1) 3 =
      min ((2 : Int) + cfgC.event_window.1).toNat 3 := by
  have hmodel : calculate_expected_return cfgC mdC ("X") 2 = some (1, 0) := by
    unfold calculate_expected_return calculate_expected_return_core
    rw [if_neg (by decide)]
    have hb : pySlice (col mdC (cfgC.benchmark_ticker))
        (est_start cfgC ((2 : Nat) : Int)) (est_end cfgC ((2 : Nat) : Int)) = [4] := by rfl
    have hs : pySlice (col mdC ("X"))
        (est_start cfgC ((2 : Nat) : Int)) (est_end cfgC ((2 : Nat) : Int)) = [1] := by rfl
    rw [hb, hs]
    norm_num [linfit]
  have h := emitted_window_start_nonneg cfgC mdC ("X") (by decide) (by decide)
    2 (1, 0) hmodel
  exact ⟨hmodel, h.1, h.2 3⟩

/-- C2 (amended with the in-range proviso forced by the truncation
counterexample): for every processed event whose trade window lies inside
the stored series, the trade window is the inclusive index range
`[event_position + lead_days, event_position + lag_days]`, the emitted
record's CAR is the sum over that window of
`realized − (alpha + beta * benchmark)`, its realized-return field is the
sum of the raw security returns over the same window, and the ticker,
event date and quality score pass through unchanged. -/
theorem trade_window_car (cfg : Config) (md : MarketData) (ev : Event)
    (event_idx : Nat) (alpha beta : ℚ)
    (hmem : ev.ticker ∈ md.cols.map Prod.fst)
    (hidx : List.findIdx? (fun d => d == ev.event_date) md.dates = some event_idx)
    (hmodel : calculate_expected_return cfg md ev.ticker event_idx = some (alpha, beta))
    (hlen : (col md ev.ticker).length = (col md cfg.benchmark_ticker).length)
    (h0 : 0 ≤ (event_idx : Int) + cfg.event_window.1)
    (h1 : (event_idx : Int) + cfg.event_window.1 ≤
      (event_idx : Int) + cfg.event_window.2 + 1)
    (h2 : (event_idx : Int) + cfg.event_window.2 + 1 ≤
      ((col md ev.ticker).length : Int)) :
    process_event cfg md ev = some
      { ticker := ev.ticker, event_date := ev.event_date,
        quality_score := ev.quality_score,
        car := ((List.range' ((event_idx : Int) + cfg.event_window.1).toNat
            ((event_idx : Int) + cfg.event_window.2 + 1 -
              ((event_idx : Int) + cfg.event_window.1)).toNat).map
            (fun i => (col md ev.ticker).getD i 0 -
              (alpha + beta * (col md cfg.benchmark_ticker).getD i 0))).sum,
        real_return := ((List.range' ((event_idx : Int) + cfg.event_window.1).toNat
            ((event_idx : Int) + cfg.event_window.2 + 1 -
              ((event_idx : Int) + cfg.event_window.1)).toNat).map
            (fun i => (col md ev.ticker).getD i 0)).sum } := by
  have h2b : (event_idx : Int) + cfg.event_window.2 + 1 ≤
      ((col md cfg.benchmark_ticker).length : Int) := by
    rw [← hlen]; exact h2
  rw [process_event_eq hmem hidx hmodel, pySlice_eq_range' h0 h1 h2,
    pySlice_eq_range' h0 h1 h2b, List.map_map, zipWith_map_same]
  simp only [Function.comp]

/-- Witness for C2: the record emitted for the `cfgA`/`mdA` scenario,
computed through `trade_window_car` and evaluated. -/
theorem trade_window_car_witness :
    process_event cfgA mdA evA = some ⟨"X", 1, "High", -8, 2⟩ := by
  have hmodel : calculate_expected_return cfgA mdA (evA.ticker) 1 = some (10, 0) := by
    unfold calculate_expected_return calculate_expected_return_core
    rw [if_neg (by decide)]
    have hb : pySlice (col mdA (cfgA.benchmark_ticker))
        (est_start cfgA ((1 : Nat) : Int)) (est_end cfgA ((1 : Nat) : Int)) = [1] := by rfl
    have hs : pySlice (col mdA (evA.ticker))
        (est_start cfgA ((1 : Nat) : Int)) (est_end cfgA ((1 : Nat) : Int)) = [10] := by rfl
    rw [hb, hs]
    norm_num [linfit]
  have hmem : evA.ticker ∈ mdA.cols.map Prod.fst := by decide
  have hidx : List.findIdx? (fun d => d == evA.event_date) mdA.dates = some 1 := by decide
  rw [trade_window_car cfgA mdA evA 1 10 0 hmem hidx hmodel rfl (by decide)
    (by decide) (by decide)]
  have hrg : List.range' (((1 : Nat) : Int) + cfgA.event_window.1).toNat
      (((1 : Nat) : Int) + cfgA.event_window.2 + 1 -
        (((1 : Nat) : Int) + cfgA.event_window.1)).toNat = [1] := by rfl
  rw [hrg]
  have e1 : (col mdA (evA.ticker)).getD 1 0 = 2 := by rfl
  have e2 : (col mdA (cfgA.benchmark_ticker)).getD 1 0 = 5 := by rfl
  simp only [List.map_cons, List.map_nil, List.sum_cons, List.sum_nil, e1, e2]
  norm_num
  exact ⟨rfl, rfl, rfl⟩

/-- Counterexample for C2 as stated: event at position 1 in a three-day
store with window `(0, 5)` — the claimed trade window is `[1, 6]`, but the
slice silently truncates to two days, and the emitted CAR `−10` differs
from the claim's sum over the inclusive window (which is `−42`, reading
returns past the series end as 0). -/
theorem trade_window_car_counterexample :
    calculate_expected_return cfgD mdE ("X") 1 = some (8, 0) ∧
    process_event cfgD mdE evA = some ⟨"X", 1, "High", -10, 6⟩ ∧
    (-10 : ℚ) ≠ ((List.range' 1 6).map
      (fun i => (col mdE ("X")).getD i 0 -
        (8 + 0 * (col mdE ("B")).getD i 0))).sum := by
  have hmodel : calculate_expected_return cfgD mdE ("X") 1 = some (8, 0) := by
    unfold calculate_expected_return calculate_expected_return_core
    rw [if_neg (by decide)]
    have hb : pySlice (col mdE (cfgD.benchmark_ticker))
        (est_start cfgD ((1 : Nat) : Int)) (est_end cfgD ((1 : Nat) : Int)) = [1] := by rfl
    have hs : pySlice (col mdE ("X"))
        (est_start cfgD ((1 : Nat) : Int)) (est_end cfgD ((1 : Nat) : Int)) = [8] := by rfl
    rw [hb, hs]
    norm_num [linfit]
  refine ⟨hmodel, ?_, ?_⟩
  · have hmem : evA.ticker ∈ mdE.cols.map Prod.fst := by decide
    have hidx : List.findIdx? (fun d => d == evA.event_date) mdE.dates = some 1 := by decide
    have hmodel2 : calculate_expected_return cfgD mdE (evA.ticker) 1 = some (8, 0) := hmodel
    rw [process_event_eq hmem hidx hmodel2]
    have hr : pySlice (col mdE (evA.ticker)) (((1 : Nat) : Int) + cfgD.event_window.1)
        (((1 : Nat) : Int) + cfgD.event_window.2 + 1) = [2, 4] := by rfl
    have hm : pySlice (col mdE (cfgD.benchmark_ticker)) (((1 : Nat) : Int) + cfgD.event_window.1)
        (((1 : Nat) : Int) + cfgD.event_window.2 + 1) = [5, 7] := by rfl
    rw [hr, hm]
    simp only [List.map_cons, List.map_nil, List.zipWith_cons_cons,
      List.zipWith_nil_right, List.sum_cons, List.sum_nil]
    norm_num
    exact ⟨rfl, rfl, rfl⟩
  · have hrg : List.range' 1 6 = [1, 2, 3, 4, 5, 6] := by rfl
    rw [hrg]
    have x1 : (col mdE ("X")).getD 1 0 = 2 := by rfl
    have x2 : (col mdE ("X")).getD 2 0 = 4 := by rfl
    have x3 : (col mdE ("X")).getD 3 0 = 0 := by rfl
    have x4 : (col mdE ("X")).getD 4 0 = 0 := by rfl
    have x5 : (col mdE ("X")).getD 5 0 = 0 := by rfl
    have x6 : (col mdE ("X")).getD 6 0 = 0 := by rfl
    have b1 : (col mdE ("B")).getD 1 0 = 5 := by rfl
    have b2 : (col mdE ("B")).getD 2 0 = 7 := by rfl
    have b3 : (col mdE ("B")).getD 3 0 = 0 := by rfl
    have b4 : (col mdE ("B")).getD 4 0 = 0 := by rfl
    have b5 : (col mdE ("B")).getD 5 0 = 0 := by rfl
    have b6 : (col mdE ("B")).getD 6 0 = 0 := by rfl
    simp only [List.map_cons, List.map_nil, List.sum_cons, List.sum_nil,
      x1, x2, x3, x4, x5, x6, b1, b2, b3, b4, b5, b6]
    norm_num

/-- C4 (amended for the instance-level accumulator): `run_event_study`
returns the previously accumulated records followed by exactly one record
per processable event of this call, in the input order of those events;
on an engine with no previously accumulated results the output is exactly
the processable events' records in input order. -/
theorem run_output_order (st : Backtester) (events : List Event) :
    (run_event_study st events).2 =
      st.results ++
        (events.filter
          (fun e => (process_event st.cfg st.market_data e).isSome)).map
          (fun e => (process_event st.cfg st.market_data e).getD emptyRecord) ∧
    (st.results = [] →
      (run_event_study st events).2.length =
        (events.filter
          (fun e => (process_event st.cfg st.market_data e).isSome)).length) := by
  have key := filterMap_eq_filter_map (process_event st.cfg st.market_data)
    emptyRecord events
  constructor
  · show st.results ++ events.filterMap (process_event st.cfg st.market_data) = _
    rw [key]
  · intro h
    show (st.results ++
      events.filterMap (process_event st.cfg st.market_data)).length = _
    rw [h, key]
    simp [List.length_map]

/-- Witness for C4: a fresh engine and one processable event give exactly
one record. -/
theorem run_output_order_witness :
    (run_event_study (mkBacktester cfgA mdA) [evA]).2.length =
      ([evA].filter (fun e => (process_event (mkBacktester cfgA mdA).cfg
        (mkBacktester cfgA mdA).market_data e).isSome)).length :=
  (run_output_order (mkBacktester cfgA mdA) [evA]).2 rfl

/-- Counterexample for C4 as stated: an engine carrying one record from an
earlier invocation returns two records for a one-event input of which
exactly one event is processable. -/
theorem run_output_order_counterexample :
    ((run_event_study stA2 [evA]).2).length = 2 ∧
    ([evA].filter
      (fun e => (process_event stA2.cfg stA2.market_data e).isSome)).length = 1 ∧
    ((run_event_study stA2 [evA]).2).length ≠
      ([evA].filter
        (fun e => (process_event stA2.cfg stA2.market_data e).isSome)).length := by
  have a : ((run_event_study stA2 [evA]).2).length = 2 := rfl
  have b : ([evA].filter
      (fun e => (process_event stA2.cfg stA2.market_data e).isSome)).length = 1 := rfl
  exact ⟨a, b, by rw [a, b]; decide⟩

/-- C5 is violated by the code: `self.results` is instance-level state that
`run_event_study` appends to and returns whole, so a second invocation on
the same engine returns the first invocation's record again — evaluated
here on a concrete engine run twice over the same single event. -/
theorem results_accumulate_across_runs :
    ((run_event_study (mkBacktester cfgA mdA) [evA]).2).length = 1 ∧
    ((run_event_study (run_event_study (mkBacktester cfgA mdA) [evA]).1
      [evA]).2).length = 2 ∧
    ((run_event_study (run_event_study (mkBacktester cfgA mdA) [evA]).1
      [evA]).2).head? =
      ((run_event_study (mkBacktester cfgA mdA) [evA]).2).head? :=
  ⟨rfl, rfl, rfl⟩

/-- C6 is violated by the code: an event at position 1 of a three-day store
with window `(0, 5)` has `win_end = 6` at/beyond the series length, yet the
positional slice silently truncates to the two available days, no error
propagates, and `run_event_study` emits a record computed over the
truncated window. -/
theorem out_of_range_window_truncates :
    (col mdA ("X")).length = 3 ∧
    ((col mdA ("X")).length : Int) ≤ (1 : Int) + cfgD.event_window.2 ∧
    process_event cfgD mdA evA = some ⟨"X", 1, "High", -14, 6⟩ ∧
    (run_event_study (mkBacktester cfgD mdA) [evA]).2 =
      [⟨"X", 1, "High", -14, 6⟩] := by
  have hmodel : calculate_expected_return cfgD mdA (evA.ticker) 1 = some (10, 0) := by
    unfold calculate_expected_return calculate_expected_return_core
    rw [if_neg (by decide)]
    have hb : pySlice (col mdA (cfgD.benchmark_ticker))
        (est_start cfgD ((1 : Nat) : Int)) (est_end cfgD ((1 : Nat) : Int)) = [1] := by rfl
    have hs : pySlice (col mdA (evA.ticker))
        (est_start cfgD ((1 : Nat) : Int)) (est_end cfgD ((1 : Nat) : Int)) = [10] := by rfl
    rw [hb, hs]
    norm_num [linfit]
  have hmem : evA.ticker ∈ mdA.cols.map Prod.fst := by decide
  have hidx : List.findIdx? (fun d => d == evA.event_date) mdA.dates = some 1 := by decide
  have hpe : process_event cfgD mdA evA = some ⟨"X", 1, "High", -14, 6⟩ := by
    rw [process_event_eq hmem hidx hmodel]
    have hr : pySlice (col mdA (evA.ticker)) (((1 : Nat) : Int) + cfgD.event_window.1)
        (((1 : Nat) : Int) + cfgD.event_window.2 + 1) = [2, 4] := by rfl
    have hm : pySlice (col mdA (cfgD.benchmark_ticker)) (((1 : Nat) : Int) + cfgD.event_window.1)
        (((1 : Nat) : Int) + cfgD.event_window.2 + 1) = [5, 7] := by rfl
    rw [hr, hm]
    simp only [List.map_cons, List.map_nil, List.zipWith_cons_cons,
      List.zipWith_nil_right, List.sum_cons, List.sum_nil]
    norm_num
    exact ⟨rfl, rfl, rfl⟩
  refine ⟨rfl, by decide, hpe, ?_⟩
  show [] ++ [evA].filterMap (process_event cfgD mdA) = _
  simp [List.filterMap_cons, hpe]

/-- C8 (amended with the same in-range proviso as C2): for a processed
event whose trade window lies inside the stored series, a fitted model
with `alpha = 0` and `beta = 0` makes CAR equal the realized-return sum
exactly, and an all-zero benchmark trade window makes
`CAR = realized_total − alpha * window_length`. -/
theorem car_degeneracy (cfg : Config) (md : MarketData) (ev : Event)
    (event_idx : Nat) (alpha beta : ℚ) (r : ResultRecord)
    (hmem : ev.ticker ∈ md.cols.map Prod.fst)
    (hidx : List.findIdx? (fun d => d == ev.event_date) md.dates = some event_idx)
    (hmodel : calculate_expected_return cfg md ev.ticker event_idx = some (alpha, beta))
    (hlen : (col md ev.ticker).length = (col md cfg.benchmark_ticker).length)
    (h0 : 0 ≤ (event_idx : Int) + cfg.event_window.1)
    (h1 : (event_idx : Int) + cfg.event_window.1 ≤
      (event_idx : Int) + cfg.event_window.2 + 1)
    (h2 : (event_idx : Int) + cfg.event_window.2 + 1 ≤
      ((col md ev.ticker).length : Int))
    (hr : process_event cfg md ev = some r) :
    (alpha = 0 → beta = 0 → r.car = r.real_return) ∧
    ((∀ i : Nat, (event_idx : Int) + cfg.event_window.1 ≤ (i : Int) →
        (i : Int) ≤ (event_idx : Int) + cfg.event_window.2 →
        (col md cfg.benchmark_ticker).getD i 0 = 0) →
      r.car = r.real_return - alpha *
        ((((event_idx : Int) + cfg.event_window.2 + 1 -
          ((event_idx : Int) + cfg.event_window.1)).toNat : ℚ))) := by
  have h2b : (event_idx : Int) + cfg.event_window.2 + 1 ≤
      ((col md cfg.benchmark_ticker).length : Int) := by
    rw [← hlen]; exact h2
  rw [process_event_eq hmem hidx hmodel] at hr
  have hrv := Option.some.inj hr.symm
  subst hrv
  set R := pySlice (col md ev.ticker) ((event_idx : Int) + cfg.event_window.1)
    ((event_idx : Int) + cfg.event_window.2 + 1) with hR
  set M := pySlice (col md cfg.benchmark_ticker)
    ((event_idx : Int) + cfg.event_window.1)
    ((event_idx : Int) + cfg.event_window.2 + 1) with hM
  have hMlen : M.length = R.length := by
    rw [hR, hM]
    exact pySlice_length_eq _ _ _ _ hlen.symm
  have hRlen : R.length = ((event_idx : Int) + cfg.event_window.2 + 1 -
      ((event_idx : Int) + cfg.event_window.1)).toNat := by
    rw [hR, pySlice_eq_range' h0 h1 h2, List.length_map, List.length_range']
  constructor
  · intro ha hb
    subst ha
    subst hb
    have hz : M.map (fun m => (0 : ℚ) + 0 * m) = List.replicate M.length 0 := by
      rw [show (fun m : ℚ => (0 : ℚ) + 0 * m) = fun _ => (0 : ℚ) from
        funext (fun m => by ring), List.map_const']
    show (List.zipWith (fun r e => r - e) R (M.map (fun m => (0 : ℚ) + 0 * m))).sum = R.sum
    rw [hz, hMlen, sum_zipWith_sub_replicate]
    simp
  · intro hzero
    have hM0 : ∀ m ∈ M, m = 0 := by
      intro m hm
      rw [hM, pySlice_eq_range' h0 h1 h2b] at hm
      obtain ⟨i, hi, rfl⟩ := List.mem_map.mp hm
      obtain ⟨k, hk, rfl⟩ := List.mem_range'.mp hi
      refine hzero _ (by omega) (by omega)
    show (List.zipWith (fun r e => r - e) R (M.map (fun m => alpha + beta * m))).sum =
      R.sum - alpha * _
    rw [map_affine_of_zero M alpha beta hM0, hMlen, sum_zipWith_sub_replicate,
      hRlen]
    ring

/-- Witness for C8: a scenario where the fitted model is `(0, 0)` and the
benchmark trade window is all zeros, so both degeneracies hold at once. -/
theorem car_degeneracy_witness :
    process_event cfgB mdB evA = some ⟨"X", 1, "High", 8, 8⟩ ∧
    (⟨"X", 1, "High", 8, 8⟩ : ResultRecord).car =
      (⟨"X", 1, "High", 8, 8⟩ : ResultRecord).real_return ∧
    (⟨"X", 1, "High", 8, 8⟩ : ResultRecord).car =
      (⟨"X", 1, "High", 8, 8⟩ : ResultRecord).real_return - 0 *
        (((((1 : Nat) : Int) + cfgB.event_window.2 + 1 -
          (((1 : Nat) : Int) + cfgB.event_window.1)).toNat : ℚ)) := by
  have hmodel : calculate_expected_return cfgB mdB (evA.ticker) 1 = some (0, 0) := by
    unfold calculate_expected_return calculate_expected_return_core
    rw [if_neg (by decide)]
    have hb : pySlice (col mdB (cfgB.benchmark_ticker))
        (est_start cfgB ((1 : Nat) : Int)) (est_end cfgB ((1 : Nat) : Int)) = [2] := by rfl
    have hs : pySlice (col mdB (evA.ticker))
        (est_start cfgB ((1 : Nat) : Int)) (est_end cfgB ((1 : Nat) : Int)) = [0] := by rfl
    rw [hb, hs]
    norm_num [linfit]
  have hmem : evA.ticker ∈ mdB.cols.map Prod.fst := by decide
  have hidx : List.findIdx? (fun d => d == evA.event_date) mdB.dates = some 1 := by decide
  have hpe : process_event cfgB mdB evA = some ⟨"X", 1, "High", 8, 8⟩ := by
    rw [process_event_eq hmem hidx hmodel]
    have hr : pySlice (col mdB (evA.ticker)) (((1 : Nat) : Int) + cfgB.event_window.1)
        (((1 : Nat) : Int) + cfgB.event_window.2 + 1) = [3, 5] := by rfl
    have hm : pySlice (col mdB (cfgB.benchmark_ticker)) (((1 : Nat) : Int) + cfgB.event_window.1)
        (((1 : Nat) : Int) + cfgB.event_window.2 + 1) = [0, 0] := by rfl
    rw [hr, hm]
    simp only [List.map_cons, List.map_nil, List.zipWith_cons_cons,
      List.zipWith_nil_right, List.sum_cons, List.sum_nil]
    norm_num
    exact ⟨rfl, rfl, rfl⟩
  have h := car_degeneracy cfgB mdB evA 1 0 0 ⟨"X", 1, "High", 8, 8⟩ hmem hidx
    hmodel rfl (by decide) (by decide) (by decide) hpe
  refine ⟨hpe, h.1 rfl rfl, h.2 ?_⟩
  intro i hi1 hi2
  have e1 : ((1 : Nat) : Int) + cfgB.event_window.1 = 1 := by decide
  have e2 : ((1 : Nat) : Int) + cfgB.event_window.2 = 2 := by decide
  rw [e1] at hi1
  rw [e2] at hi2
  have : i = 1 ∨ i = 2 := by omega
  rcases this with h1 | h1 <;> subst h1 <;> rfl

/-- Counterexample for C8 as stated: with the trade window overrunning the
series end, the benchmark returns stored in the window are all zero and
`alpha = 8`, but the emitted CAR is `−10`, not
`realized_total − alpha * window_length = 6 − 8 * 6 = −42`. -/
theorem car_degeneracy_counterexample :
    calculate_expected_return cfgD mdF ("X") 1 = some (8, 0) ∧
    pySlice (col mdF ("B")) (((1 : Nat) : Int) + cfgD.event_window.1)
      (((1 : Nat) : Int) + cfgD.event_window.2 + 1) = [0, 0] ∧
    process_event cfgD mdF evA = some ⟨"X", 1, "High", -10, 6⟩ ∧
    (-10 : ℚ) ≠ 6 - 8 *
      (((((1 : Nat) : Int) + cfgD.event_window.2 + 1 -
        (((1 : Nat) : Int) + cfgD.event_window.1)).toNat : ℚ)) := by
  have hmodel : calculate_expected_return cfgD mdF ("X") 1 = some (8, 0) := by
    unfold calculate_expected_return calculate_expected_return_core
    rw [if_neg (by decide)]
    have hb : pySlice (col mdF (cfgD.benchmark_ticker))
        (est_start cfgD ((1 : Nat) : Int)) (est_end cfgD ((1 : Nat) : Int)) = [1] := by rfl
    have hs : pySlice (col mdF ("X"))
        (est_start cfgD ((1 : Nat) : Int)) (est_end cfgD ((1 : Nat) : Int)) = [8] := by rfl
    rw [hb, hs]
    norm_num [linfit]
  refine ⟨hmodel, by rfl, ?_, ?_⟩
  · have hmem : evA.ticker ∈ mdF.cols.map Prod.fst := by decide
    have hidx : List.findIdx? (fun d => d == evA.event_date) mdF.dates = some 1 := by decide
    have hmodel2 : calculate_expected_return cfgD mdF (evA.ticker) 1 = some (8, 0) := hmodel
    rw [process_event_eq hmem hidx hmodel2]
    have hr : pySlice (col mdF (evA.ticker)) (((1 : Nat) : Int) + cfgD.event_window.1)
        (((1 : Nat) : Int) + cfgD.event_window.2 + 1) = [2, 4] := by rfl
    have hm : pySlice (col mdF (cfgD.benchmark_ticker)) (((1 : Nat) : Int) + cfgD.event_window.1)
        (((1 : Nat) : Int) + cfgD.event_window.2 + 1) = [0, 0] := by rfl
    rw [hr, hm]
    simp only [List.map_cons, List.map_nil, List.zipWith_cons_cons,
      List.zipWith_nil_right, List.sum_cons, List.sum_nil]
    norm_num
    exact ⟨rfl, rfl, rfl⟩
  · have e3 : ((((1 : Nat) : Int) + cfgD.event_window.2 + 1 -
        (((1 : Nat) : Int) + cfgD.event_window.1)).toNat) = 6 := by decide
    rw [e3]
    norm_num

/-- Every row produced by `logReturnRows` combines a raw price row (whose
date it carries) with a previous row of the same width. -/
lemma logReturnRows_mem (log : ℚ → ℚ) (k : Nat) :
    ∀ (raw : List (Date × List (Option ℚ))) (prev : List (Option ℚ)),
      prev.length = k → (∀ r ∈ raw, r.2.length = k) →
      ∀ row ∈ logReturnRows log prev raw,
        ∃ cur pr, (row.1, cur) ∈ raw ∧ cur.length = k ∧ pr.length = k ∧
          row.2 = List.zipWith (logStep log) cur pr := by
  intro raw
  induction raw with
  | nil =>
    intro prev _ _ row h
    simp [logReturnRows] at h
  | cons a rest ih =>
    intro prev hp hwf row hrow
    obtain ⟨d, cur⟩ := a
    rw [logReturnRows] at hrow
    rcases List.mem_cons.mp hrow with h1 | h2
    · subst h1
      exact ⟨cur, prev, List.mem_cons_self _ _,
        hwf (d, cur) (List.mem_cons_self _ _), hp, rfl⟩
    · obtain ⟨cur2, pr, hmem2, hc, hpr, heq⟩ :=
        ih cur (hwf (d, cur) (List.mem_cons_self _ _))
          (fun r hr => hwf r (List.mem_cons_of_mem _ hr)) row h2
      exact ⟨cur2, pr, List.mem_cons_of_mem _ hmem2, hc, hpr, heq⟩

/-- A present entry of a `logStep`-combined row forces a present price in
the current raw row at the same position. -/
lemma zipWith_logStep_isSome (log : ℚ → ℚ) :
    ∀ (cur pr : List (Option ℚ)) (j : Nat) (v : Option ℚ),
      (List.zipWith (logStep log) cur pr).get? j = some v → v.isSome →
      ∃ q : ℚ, cur.get? j = some (some q) := by
  intro cur
  induction cur with
  | nil =>
    intro pr j v h _
    simp at h
  | cons c cur ih =>
    intro pr j v h hv
    cases pr with
    | nil => simp at h
    | cons p pr =>
      cases j with
      | zero =>
        simp only [List.zipWith_cons_cons, List.get?_cons_zero,
          Option.some.injEq] at h
        cases c with
        | none =>
          rw [← h, show logStep log none p = none from rfl] at hv
          simp at hv
        | some q => exact ⟨q, rfl⟩
      | succ j =>
        simp only [List.zipWith_cons_cons, List.get?_cons_succ] at h
        exact ih pr j v h hv

/-- C7: every constructed store keeps one common trading-date index (each
column is exactly as long as the date index), and every position of that
index carries a date at which every tracked symbol has a present raw
price — rows with any missing return were dropped, so no slice position
ever exposes a date missing from any one symbol's raw series. -/
theorem store_alignment (log : ℚ → ℚ) (syms : List String)
    (raw : List (Date × List (Option ℚ)))
    (hwf : ∀ r ∈ raw, r.2.length = syms.length) :
    (∀ c ∈ (fetch_market_data log syms raw).cols,
      c.2.length = (fetch_market_data log syms raw).dates.length) ∧
    (∀ (i : Nat) (d : Date),
      (fetch_market_data log syms raw).dates.get? i = some d →
      ∃ r ∈ raw, r.1 = d ∧
        ∀ j < syms.length, ∃ q : ℚ, r.2.get? j = some (some q)) := by
  constructor
  · intro c hc
    unfold fetch_market_data at hc ⊢
    simp only [List.mem_map] at hc
    obtain ⟨sj, _, rfl⟩ := hc
    simp [List.length_map]
  · intro i d hd
    unfold fetch_market_data at hd
    have hdm : d ∈ (dropna (logReturnRows log
        (List.replicate syms.length none) raw)).map Prod.fst :=
      List.get?_mem hd
    obtain ⟨row, hrowmem, hrowd⟩ := List.mem_map.mp hdm
    have hfil := List.mem_filter.mp hrowmem
    obtain ⟨cur, pr, hcur_mem, hck, hpk, heq⟩ :=
      logReturnRows_mem log syms.length raw (List.replicate syms.length none)
        (List.length_replicate _ _) hwf row hfil.1
    refine ⟨(row.1, cur), hcur_mem, hrowd, ?_⟩
    intro j hj
    have hlen2 : row.2.length = syms.length := by
      rw [heq, List.length_zipWith, hck, hpk]
      exact min_self _
    obtain ⟨v, hv⟩ : ∃ v, row.2.get? j = some v := by
      cases hgv : row.2.get? j with
      | none => exact absurd (List.get?_eq_none.mp hgv) (by omega)
      | some v => exact ⟨v, rfl⟩
    have hvs : v.isSome := List.all_eq_true.mp hfil.2 v (List.get?_mem hv)
    rw [heq] at hv
    exact zipWith_logStep_isSome log cur pr j v hv hvs

/-- Witness for C7: a two-symbol, two-day raw input whose aligned store
keeps the one row where both symbols have prices on both days. -/
theorem store_alignment_witness :
    (∀ r ∈ rawW, r.2.length = (["X", "B"] : List String).length) ∧
    (∃ r ∈ rawW, r.1 = 1 ∧
      ∀ j < (["X", "B"] : List String).length,
        ∃ q : ℚ, r.2.get? j = some (some q)) :=
  ⟨by decide,
    (store_alignment id ["X", "B"] rawW (by decide)).2 0 1 rfl⟩

/-- C9 is violated by the code: raw data with complementary gaps produces an
empty aligned log-return series, and `fetch_market_data` (which has no
failure path at all) silently stores the empty frame; a subsequent run
merely skips every event. -/
theorem empty_aligned_store_accepted :
    (fetch_market_data id ["X", "B"] rawBad).dates = [] ∧
    (fetch_market_data id ["X", "B"] rawBad).cols = [("X", []), ("B", [])] ∧
    (run_event_study
      (mkBacktester cfgA (fetch_market_data id ["X", "B"] rawBad))
      [evA]).2 = [] :=
  ⟨rfl, rfl, rfl⟩

end BiotechEvent
